import Mathlib

set_option maxRecDepth 10000

/-!
Verification of the CkNN graph construction (`cknn/cknn.py`).

The development shallowly embeds the core of the repository:

* matrices (`numpy` dense / `scipy` sparse matrices) become functions
  `Fin n → Fin n → ℚ`; adjacency structures become `Fin n → Fin n → Bool`;
* the external collaborators the spec declares out of scope
  (`radius_neighbors_graph`, `scipy.sparse.csgraph.connected_components`,
  `networkx.has_path`) are embedded with their documented semantics:
  a radius graph connects distinct points at distance `≤ radius`,
  components are the weak (symmetrized) reachability classes labelled in
  first-seen node order, and `has_path` is directed reachability;
* floating point numbers are idealized as rationals, and comparisons that
  the source makes on square roots are made on squares (all quantities
  involved are nonnegative), so that every definition stays executable;
* fallible code (`raise`, and loops whose exit is not guaranteed) returns
  `Except`/`Option`.
-/

namespace Cknn

/-!
Scalars: the source computes with IEEE doubles.  They are idealized as an
arbitrary linearly ordered commutative ring `α`, so every general theorem
holds in particular over `ℝ` and `ℚ`; concrete witnesses use `α = ℤ`
(integral distances), which the kernel can evaluate. -/

variable {α : Type} [LinearOrderedCommRing α]

/-- The sentinel `INF = 1.0e308` from the source, idealized as the exact
value `10 ^ 308`. -/
def INF (α : Type) [LinearOrderedCommRing α] : α := 10 ^ 308

/-- An `n × n` matrix of (idealized) floats. -/
abbrev Mat (α : Type) (n : ℕ) := Fin n → Fin n → α

/-- An adjacency structure: the Boolean sparsity pattern of a matrix. -/
abbrev Graph (n : ℕ) := Fin n → Fin n → Bool

/-- A matrix built from a row-major list of rows (for concrete inputs). -/
def matOfLists (l : List (List α)) (n : ℕ) : Mat α n :=
  fun i j => ((l.getD i.val []).getD j.val 0)

/-- The sparsity pattern of a matrix: entry `(i, j)` is an edge iff it is
nonzero. -/
def toGraph {n : ℕ} (M : Mat α n) : Graph n := fun i j => decide (M i j ≠ 0)

/-- Overwrite one entry of a matrix (models `m[i, j] = v`). -/
def setEntry {n : ℕ} (M : Mat α n) (i j : Fin n) (v : α) : Mat α n :=
  fun a b => if a = i ∧ b = j then v else M a b

/-- Entrywise sum (models `rng + critical_conn`). -/
def addM {n : ℕ} (A B : Mat α n) : Mat α n := fun i j => A i j + B i j

instance {ε β : Type} [DecidableEq ε] [DecidableEq β] :
    DecidableEq (Except ε β) := fun x y =>
  match x, y with
  | .error a, .error b =>
    if h : a = b then .isTrue (by rw [h])
    else .isFalse (fun he => h (Except.error.inj he))
  | .error _, .ok _ => .isFalse (fun he => Except.noConfusion he)
  | .ok _, .error _ => .isFalse (fun he => Except.noConfusion he)
  | .ok a, .ok b =>
    if h : a = b then .isTrue (by rw [h])
    else .isFalse (fun he => h (Except.ok.inj he))

/-! ### Directed reachability

`networkx.has_path` is embedded as membership in the forward-reachable set,
computed by saturating the one-step successor expansion `n` times. -/

/-- One expansion step: add every successor of the current set. -/
def expand {n : ℕ} (g : Graph n) (s : Finset (Fin n)) : Finset (Fin n) :=
  s ∪ Finset.univ.filter (fun j => ∃ i ∈ s, g i j = true)

/-- All nodes reachable from `i` along directed edges of `g`. -/
def reachSet {n : ℕ} (g : Graph n) (i : Fin n) : Finset (Fin n) :=
  (expand g)^[n] {i}

/-- `reaches g i j` holds iff a directed path from `i` to `j` exists
(the semantics of `networkx.has_path`). -/
def reaches {n : ℕ} (g : Graph n) (i j : Fin n) : Prop :=
  j ∈ reachSet g i

instance {n : ℕ} (g : Graph n) (i j : Fin n) : Decidable (reaches g i j) := by
  unfold reaches; infer_instance

/-- The edge relation underlying a graph. -/
def EdgeRel {n : ℕ} (g : Graph n) : Fin n → Fin n → Prop :=
  fun a b => g a b = true

lemma subset_expand {n : ℕ} (g : Graph n) (s : Finset (Fin n)) :
    s ⊆ expand g s :=
  Finset.subset_union_left

lemma mem_expand_of_edge {n : ℕ} {g : Graph n} {s : Finset (Fin n)}
    {a b : Fin n} (ha : a ∈ s) (hab : g a b = true) : b ∈ expand g s := by
  unfold expand
  refine Finset.mem_union_right _ ?_
  simp only [Finset.mem_filter, Finset.mem_univ, true_and]
  exact ⟨a, ha, hab⟩

lemma mem_expand_elim {n : ℕ} {g : Graph n} {s : Finset (Fin n)} {b : Fin n}
    (hb : b ∈ expand g s) : b ∈ s ∨ ∃ a ∈ s, g a b = true := by
  unfold expand at hb
  rcases Finset.mem_union.mp hb with h | h
  · exact Or.inl h
  · right
    simpa using h

lemma iterate_expand_subset_succ {n : ℕ} (g : Graph n) (s : Finset (Fin n))
    (k : ℕ) : (expand g)^[k] s ⊆ (expand g)^[k + 1] s := by
  rw [Function.iterate_succ_apply']
  exact subset_expand g _

lemma iterate_expand_card_of_ne {n : ℕ} (g : Graph n) (s : Finset (Fin n)) :
    ∀ k : ℕ, (∀ m < k, (expand g)^[m + 1] s ≠ (expand g)^[m] s) →
      k + s.card ≤ ((expand g)^[k] s).card := by
  intro k
  induction k with
  | zero => intro _; simp
  | succ k ih =>
    intro h
    have hk : k + s.card ≤ ((expand g)^[k] s).card :=
      ih (fun m hm => h m (Nat.lt_succ_of_lt hm))
    have hne : (expand g)^[k + 1] s ≠ (expand g)^[k] s :=
      h k (Nat.lt_succ_self k)
    have hss : (expand g)^[k] s ⊂ (expand g)^[k + 1] s :=
      Finset.ssubset_iff_subset_ne.mpr
        ⟨iterate_expand_subset_succ g s k, fun he => hne he.symm⟩
    have := Finset.card_lt_card hss
    omega

lemma exists_iterate_expand_fixed {n : ℕ} (g : Graph n) (i : Fin n) :
    ∃ m < n + 1, (expand g)^[m + 1] ({i} : Finset (Fin n)) =
      (expand g)^[m] ({i} : Finset (Fin n)) := by
  by_contra hcon
  push_neg at hcon
  have h := iterate_expand_card_of_ne g ({i} : Finset (Fin n)) (n + 1)
    (fun m hm => hcon m hm)
  have hcard : (((expand g)^[n + 1] ({i} : Finset (Fin n)))).card ≤ n := by
    simpa using Finset.card_le_univ ((expand g)^[n + 1] ({i} : Finset (Fin n)))
  simp only [Finset.card_singleton] at h
  omega

lemma iterate_expand_stable {n : ℕ} (g : Graph n) (s : Finset (Fin n))
    {m : ℕ} (h : (expand g)^[m + 1] s = (expand g)^[m] s) :
    ∀ l, m ≤ l → (expand g)^[l] s = (expand g)^[m] s := by
  intro l hl
  induction l with
  | zero =>
    have : m = 0 := Nat.le_zero.mp hl
    simp [this]
  | succ l ih =>
    rcases Nat.lt_or_ge m (l + 1) with hlt | hge
    · have hml : m ≤ l := Nat.lt_succ_iff.mp hlt
      have hil := ih hml
      rw [Function.iterate_succ_apply', hil]
      rw [Function.iterate_succ_apply'] at h
      exact h
    · have : m = l + 1 := le_antisymm hl hge
      simp [this]

/-- `reachSet` is a fixed point of the expansion. -/
lemma expand_reachSet {n : ℕ} (g : Graph n) (i : Fin n) :
    expand g (reachSet g i) = reachSet g i := by
  obtain ⟨m, hm, hfix⟩ := exists_iterate_expand_fixed g i
  unfold reachSet
  have h1 : (expand g)^[n] ({i} : Finset (Fin n)) =
      (expand g)^[m] ({i} : Finset (Fin n)) :=
    iterate_expand_stable g _ hfix n (Nat.lt_succ_iff.mp hm)
  rw [h1]
  rw [Function.iterate_succ_apply'] at hfix
  exact hfix

lemma mem_reachSet_self {n : ℕ} (g : Graph n) (i : Fin n) :
    i ∈ reachSet g i := by
  unfold reachSet
  induction n with
  | zero => exact absurd i.isLt (by simp)
  | succ k ih =>
    have : ({i} : Finset (Fin _)) ⊆ (expand g)^[k + 1] {i} := by
      intro x hx
      have h0 : x ∈ (expand g)^[0] ({i} : Finset (Fin _)) := by simpa using hx
      have : ∀ l : ℕ, ({i} : Finset (Fin _)) ⊆ (expand g)^[l] {i} := by
        intro l
        induction l with
        | zero => simp
        | succ l ihl =>
          exact subset_trans ihl (iterate_expand_subset_succ g _ l)
      exact this (k + 1) hx
    exact this (Finset.mem_singleton_self i)

lemma reachSet_closed {n : ℕ} {g : Graph n} {i a b : Fin n}
    (ha : a ∈ reachSet g i) (hab : g a b = true) : b ∈ reachSet g i := by
  have := mem_expand_of_edge ha hab
  rwa [expand_reachSet] at this

lemma reaches_of_mem_iterate {n : ℕ} (g : Graph n) (i : Fin n) :
    ∀ k (j : Fin n), j ∈ (expand g)^[k] ({i} : Finset (Fin n)) →
      Relation.ReflTransGen (EdgeRel g) i j := by
  intro k
  induction k with
  | zero =>
    intro j hj
    simp only [Function.iterate_zero, id_eq, Finset.mem_singleton] at hj
    subst hj
    exact Relation.ReflTransGen.refl
  | succ k ih =>
    intro j hj
    rw [Function.iterate_succ_apply'] at hj
    rcases mem_expand_elim hj with h | ⟨a, ha, hab⟩
    · exact ih j h
    · exact Relation.ReflTransGen.tail (ih a ha) hab

/-- Correctness of the reachability computation: `reaches` coincides with
the reflexive-transitive closure of the edge relation. -/
lemma reaches_iff {n : ℕ} (g : Graph n) (i j : Fin n) :
    reaches g i j ↔ Relation.ReflTransGen (EdgeRel g) i j := by
  constructor
  · intro h
    exact reaches_of_mem_iterate g i n j h
  · intro h
    induction h with
    | refl => exact mem_reachSet_self g i
    | tail _ hbc ih => exact reachSet_closed ih hbc

lemma reaches_mono {n : ℕ} {g g' : Graph n}
    (hsub : ∀ a b, g a b = true → g' a b = true) {i j : Fin n}
    (h : reaches g i j) : reaches g' i j := by
  rw [reaches_iff] at h ⊢
  exact Relation.ReflTransGen.mono hsub h

lemma reaches_trans {n : ℕ} {g : Graph n} {i j k : Fin n}
    (h1 : reaches g i j) (h2 : reaches g j k) : reaches g i k := by
  rw [reaches_iff] at h1 h2 ⊢
  exact Relation.ReflTransGen.trans h1 h2

/-! ### Weak connected components

`scipy.sparse.csgraph.connected_components` is called with its defaults
(`directed=True, connection='weak'`): components of the symmetrized graph,
labelled in first-seen node order (equivalently: components are numbered by
increasing smallest member). -/

/-- The symmetrization of a graph (weak connectivity). -/
def symmG {n : ℕ} (g : Graph n) : Graph n := fun i j => g i j || g j i

lemma symmG_symm {n : ℕ} (g : Graph n) (i j : Fin n) :
    symmG g i j = symmG g j i := by
  simp [symmG, Bool.or_comm]

lemma sreach_symm {n : ℕ} {g : Graph n} {i j : Fin n}
    (h : reaches (symmG g) i j) : reaches (symmG g) j i := by
  rw [reaches_iff] at h ⊢
  have hsym : Symmetric (EdgeRel (symmG g)) := by
    intro a b hab
    unfold EdgeRel at hab ⊢
    rw [symmG_symm]
    exact hab
  exact Relation.ReflTransGen.symmetric hsym h

lemma reachSet_symm_eq {n : ℕ} {g : Graph n} {i j : Fin n}
    (h : reaches (symmG g) i j) :
    reachSet (symmG g) i = reachSet (symmG g) j := by
  ext x
  constructor
  · intro hx
    exact reaches_trans (sreach_symm h) hx
  · intro hx
    exact reaches_trans h hx

/-- The representative of `i`'s weak component: its smallest member. -/
def compRepr {n : ℕ} (g : Graph n) (i : Fin n) : Fin n :=
  (reachSet (symmG g) i).min' ⟨i, mem_reachSet_self _ i⟩

/-- The number of weak components (the first value `connected_components`
returns). -/
def componentCount {n : ℕ} (g : Graph n) : ℕ :=
  (Finset.univ.image (compRepr g)).card

lemma compRepr_eq_of_sreach {n : ℕ} {g : Graph n} {i j : Fin n}
    (h : reaches (symmG g) i j) : compRepr g i = compRepr g j := by
  unfold compRepr
  congr 1
  exact reachSet_symm_eq h

lemma sreach_compRepr {n : ℕ} (g : Graph n) (i : Fin n) :
    reaches (symmG g) i (compRepr g i) :=
  (reachSet (symmG g) i).min'_mem ⟨i, mem_reachSet_self _ i⟩

lemma sreach_of_compRepr_eq {n : ℕ} {g : Graph n} {i j : Fin n}
    (h : compRepr g i = compRepr g j) : reaches (symmG g) i j := by
  have h1 := sreach_compRepr g i
  have h2 := sreach_compRepr g j
  rw [h] at h1
  exact reaches_trans h1 (sreach_symm h2)

lemma sreach_all_of_count_one {n : ℕ} {g : Graph n}
    (h : componentCount g = 1) (i j : Fin n) : reaches (symmG g) i j := by
  unfold componentCount at h
  obtain ⟨x, hx⟩ := Finset.card_eq_one.mp h
  have hi : compRepr g i ∈ Finset.univ.image (compRepr g) :=
    Finset.mem_image_of_mem _ (Finset.mem_univ i)
  have hj : compRepr g j ∈ Finset.univ.image (compRepr g) :=
    Finset.mem_image_of_mem _ (Finset.mem_univ j)
  rw [hx, Finset.mem_singleton] at hi hj
  exact sreach_of_compRepr_eq (hi.trans hj.symm)

lemma count_one_of_sreach_all {n : ℕ} {g : Graph n} (hn : 0 < n)
    (h : ∀ i j, reaches (symmG g) i j) : componentCount g = 1 := by
  unfold componentCount
  rw [Finset.card_eq_one]
  refine ⟨compRepr g ⟨0, hn⟩, ?_⟩
  ext x
  simp only [Finset.mem_image, Finset.mem_univ, true_and, Finset.mem_singleton]
  constructor
  · rintro ⟨i, rfl⟩
    exact (compRepr_eq_of_sreach (h ⟨0, hn⟩ i)).symm
  · rintro rfl
    exact ⟨⟨0, hn⟩, rfl⟩

lemma pos_of_count_one {n : ℕ} {g : Graph n} (h : componentCount g = 1) :
    0 < n := by
  by_contra hn
  have hn0 : n = 0 := Nat.eq_zero_of_not_pos hn
  subst hn0
  unfold componentCount at h
  simp [Finset.univ_eq_empty] at h

lemma componentCount_lt_of_edge {n : ℕ} {g : Graph n} {a b : Fin n}
    (hab : a ≠ b) (he : g a b = true) : componentCount g < n := by
  have hsab : reaches (symmG g) a b := by
    rw [reaches_iff]
    refine Relation.ReflTransGen.single ?_
    unfold EdgeRel symmG
    simp [he]
  have hrepr : compRepr g a = compRepr g b := compRepr_eq_of_sreach hsab
  have hle : componentCount g ≤ n := by
    unfold componentCount
    calc (Finset.univ.image (compRepr g)).card ≤ Finset.univ.card :=
          Finset.card_image_le
      _ = n := by simp
  rcases lt_or_eq_of_le hle with h | h
  · exact h
  · exfalso
    have hinj : Set.InjOn (compRepr g) (Finset.univ : Finset (Fin n)) := by
      apply Finset.card_image_iff.mp
      unfold componentCount at h
      rw [h]
      simp
    exact hab (hinj (by simp) (by simp) hrepr)

lemma componentCount_pos {n : ℕ} (g : Graph n) (hn : 0 < n) :
    1 ≤ componentCount g := by
  unfold componentCount
  rw [Nat.one_le_iff_ne_zero, ← Nat.pos_iff_ne_zero, Finset.card_pos]
  exact ⟨compRepr g ⟨0, hn⟩, Finset.mem_image_of_mem _ (Finset.mem_univ _)⟩

/-! ### `cut_rng` — the RedundantEdgePruner

Embeds `CkNearestNeighbors.cut_rng` (source lines 281-302):

```
rng_conn = rng + critical_conn
r_rng, c_rng = rng.nonzero()
conn_row, conn_col = critical_conn.nonzero()
for i_row, n_conn in enumerate(np.bincount(conn_row)):
    if n_conn > 0:
        r_rng_part = r_rng[r_rng==i_row]
        c_rng_part = c_rng[r_rng==i_row]
        ind_indices = np.argsort(-rng[r_rng_part, c_rng_part])
        indices = np.concatenate((r_rng_part, c_rng_part)).reshape(2, -1)
        indices = indices[ind_indices]
        for i, j in indices:
            rng_conn[i, j] = 0
            if has_path(rng_conn, i, j) or has_path(rng_conn, j, i):
                break
            else:
                rng_conn[i, j] = 1
        else:
            raise Exception("Difficult to find connected graph")
return rng_conn
```

For a row `i_row` with `m` nonzero base-graph entries, `indices` is the
`(2, m)` array whose row 0 holds `m` copies of `i_row` and whose row 1
holds the `m` column indices in increasing order, and `ind_indices` is
the permutation of `0..m-1` sorting the edge weights in descending
order.  The fancy indexing `indices = indices[ind_indices]` selects
along AXIS 0 (of length 2), not along the candidate pairs, so under the
dense `ndarray` reading of the source:

* `m > 2`: some sort index is at least 2 — `IndexError`, raised before
  the inner loop runs;
* `m = 1`: the result is the `(1, 1)` array holding `i_row` alone, and
  the loop header `for i, j in indices` fails to unpack its single
  length-1 row — `ValueError`;
* `m = 2`: the result is the `(2, 2)` array whose rows are
  `[i_row, i_row]` and `[c1, c2]`, in that order when
  `argsort(-w) = [0, 1]` (i.e. when `w1 >= w2`; on a 2-element tie
  `numpy`'s sort performs no swap) and in the swapped order when
  `w2 > w1`; the loop therefore iterates the PAIRS `(i_row, i_row)` and
  `(c1, c2)` — never the intended candidate edges `(i_row, c1)` and
  `(i_row, c2)`;
* `m = 0`: the loop body never runs and the `for`-`else` raises the
  "Difficult to find connected graph" exception.

(The sparse-matrix reading degenerates even earlier: the weight lookup
returns a `(1, m)` matrix and `has_path` is handed a scipy matrix.)
`has_path` itself is the external path query the spec leaves out of
scope, idealized as directed reachability on the nonzero pattern, with
`has_path(G, x, x)` true. -/

/-- The nonzero columns of row `r` of the base graph, in increasing
order (`c_rng_part`). -/
def rowCols {n : ℕ} (rng : Mat α n) (r : Fin n) : List (Fin n) :=
  (List.finRange n).filter (fun j => rng r j ≠ 0)

/-- The list of `(i, j)` pairs the inner loop of `cut_rng` actually
iterates for row `r`, as produced by the axis-0 fancy indexing
`indices[ind_indices]` described above.  `.error` models the
`IndexError` (more than two base edges) and the unpacking `ValueError`
(exactly one base edge); the `m = 0` case yields the empty list, whose
`for`-`else` raise lives in `pruneLoop`. -/
def mangledPairs {n : ℕ} (rng : Mat α n) (r : Fin n) :
    Except String (List (Fin n × Fin n)) :=
  match rowCols rng r with
  | [] => .ok []
  | [_] => .error "not enough values to unpack"
  | [c1, c2] =>
    if rng r c2 ≤ rng r c1 then .ok [(r, r), (c1, c2)]
    else .ok [(c1, c2), (r, r)]
  | _ :: _ :: _ :: _ => .error "index out of bounds for axis 0 with size 2"

/-- `has_path(rng_conn, i, j) or has_path(rng_conn, j, i)` evaluated
after `rng_conn[i, j] = 0`: the survival check `cut_rng` performs for a
tentatively zeroed entry. -/
def pathPreserved {n : ℕ} (g : Mat α n) (i j : Fin n) : Prop :=
  reaches (toGraph (setEntry g i j 0)) i j ∨ reaches (toGraph (setEntry g i j 0)) j i

instance {n : ℕ} (g : Mat α n) (i j : Fin n) : Decidable (pathPreserved g i j) := by
  unfold pathPreserved
  infer_instance

/-- The inner `for i, j in indices ... else: raise` loop of `cut_rng`
over the pairs it is handed: tentatively zero the entry; if a directed
path between its endpoints survives, stop (`break`) keeping it zeroed;
otherwise restore the entry to `1` and try the next pair; raise when the
pair list is exhausted without a single `break`. -/
def pruneLoop {n : ℕ} : List (Fin n × Fin n) → Mat α n → Except String (Mat α n)
  | [], _ => .error "Difficult to find connected graph"
  | (i, j) :: rest, g =>
    if pathPreserved g i j then .ok (setEntry g i j 0)
    else pruneLoop rest (setEntry (setEntry g i j 0) i j 1)

/-- The outer loop of `cut_rng` over rows (`np.bincount(conn_row)` visits
a row's body exactly when the row has a critical outgoing edge). -/
def cutRows {n : ℕ} (rng crit : Mat α n) : List (Fin n) → Mat α n → Except String (Mat α n)
  | [], g => .ok g
  | r :: rs, g =>
    if ∃ j, crit r j ≠ 0 then
      ((mangledPairs rng r).bind (fun ps => pruneLoop ps g)).bind
        (cutRows rng crit rs)
    else cutRows rng crit rs g

/-- `CkNearestNeighbors.cut_rng`. -/
def cut_rng {n : ℕ} (rng crit : Mat α n) : Except String (Mat α n) :=
  cutRows rng crit (List.finRange n) (addM rng crit)

lemma setEntry_setEntry {n : ℕ} (g : Mat α n) (i j : Fin n) (v w : α) :
    setEntry (setEntry g i j v) i j w = setEntry g i j w := by
  funext a b
  unfold setEntry
  by_cases h : a = i ∧ b = j <;> simp [h]

/-- Zeroing a diagonal entry always passes the survival check:
`has_path(G, x, x)` holds. -/
lemma pathPreserved_diag {n : ℕ} (g : Mat α n) (r : Fin n) :
    pathPreserved g r r :=
  Or.inl (mem_reachSet_self _ r)

lemma pruneLoop_cons {n : ℕ} (p : Fin n × Fin n)
    (rest : List (Fin n × Fin n)) (g : Mat α n) :
    pruneLoop (p :: rest) g =
      if pathPreserved g p.1 p.2 then .ok (setEntry g p.1 p.2 0)
      else pruneLoop rest (setEntry g p.1 p.2 1) := by
  obtain ⟨i, j⟩ := p
  simp only [pruneLoop]
  rw [setEntry_setEntry]

/-- A succeeding `pruneLoop` only changes entries at pairs of its list. -/
lemma pruneLoop_changes_subset {n : ℕ} :
    ∀ (ps : List (Fin n × Fin n)) (g g' : Mat α n), pruneLoop ps g = .ok g' →
      ∀ a b, g' a b ≠ g a b → (a, b) ∈ ps := by
  intro ps
  induction ps with
  | nil => intro g g' h; exact absurd h (by simp [pruneLoop])
  | cons p rest ih =>
    intro g g' h a b hne
    rw [pruneLoop_cons] at h
    by_cases hp : pathPreserved g p.1 p.2
    · rw [if_pos hp] at h
      have hg' := (Except.ok.inj h).symm
      subst hg'
      unfold setEntry at hne
      by_cases hab : a = p.1 ∧ b = p.2
      · have : (a, b) = p := by rw [hab.1, hab.2]
        rw [this]
        exact List.mem_cons_self p rest
      · simp [hab] at hne
    · rw [if_neg hp] at h
      by_cases hab : a = p.1 ∧ b = p.2
      · have : (a, b) = p := by rw [hab.1, hab.2]
        rw [this]
        exact List.mem_cons_self p rest
      · have hmid : setEntry g p.1 p.2 1 a b = g a b := by
          unfold setEntry
          simp [hab]
        exact List.mem_cons_of_mem _
          (ih _ _ h a b (by rw [hmid]; exact hne))

/-- The shapes a successful `mangledPairs` can take. -/
lemma mangledPairs_ok_cases {n : ℕ} (rng : Mat α n) (r : Fin n)
    (ps : List (Fin n × Fin n)) (h : mangledPairs rng r = .ok ps) :
    ps = [] ∨ ∃ c1 c2, rowCols rng r = [c1, c2] ∧
      (ps = [(r, r), (c1, c2)] ∨ ps = [(c1, c2), (r, r)]) := by
  unfold mangledPairs at h
  match hcols : rowCols rng r with
  | [] =>
    rw [hcols] at h
    have h2 : Except.ok ([] : List (Fin n × Fin n)) = Except.ok ps := h
    exact Or.inl (Except.ok.inj h2).symm
  | [c] =>
    rw [hcols] at h
    have h2 : (Except.error "not enough values to unpack" :
        Except String (List (Fin n × Fin n))) = Except.ok ps := h
    exact absurd h2 (by simp)
  | [c1, c2] =>
    rw [hcols] at h
    have h2 : (if rng r c2 ≤ rng r c1 then Except.ok [(r, r), (c1, c2)]
        else Except.ok [(c1, c2), (r, r)]) = Except.ok ps := h
    by_cases hw : rng r c2 ≤ rng r c1
    · rw [if_pos hw] at h2
      exact Or.inr ⟨c1, c2, rfl, Or.inl (Except.ok.inj h2).symm⟩
    · rw [if_neg hw] at h2
      exact Or.inr ⟨c1, c2, rfl, Or.inr (Except.ok.inj h2).symm⟩
  | c1 :: c2 :: c3 :: l =>
    rw [hcols] at h
    have h2 : (Except.error "index out of bounds for axis 0 with size 2" :
        Except String (List (Fin n × Fin n))) = Except.ok ps := h
    exact absurd h2 (by simp)

lemma cutRows_changes_mangled {n : ℕ} (rng crit : Mat α n) :
    ∀ (rs : List (Fin n)) (g g' : Mat α n), cutRows rng crit rs g = .ok g' →
      ∀ a b, g' a b ≠ g a b →
        ∃ r, r ∈ rs ∧ (∃ j, crit r j ≠ 0) ∧
          ∃ c1 c2, rowCols rng r = [c1, c2] ∧
            ((a = r ∧ b = r) ∨ (a = c1 ∧ b = c2)) := by
  intro rs
  induction rs with
  | nil =>
    intro g g' h a b hne
    unfold cutRows at h
    rw [Except.ok.inj h] at hne
    exact absurd rfl hne
  | cons r rest ih =>
    intro g g' h a b hne
    unfold cutRows at h
    by_cases hc : ∃ j, crit r j ≠ 0
    · rw [if_pos hc] at h
      cases hmp : mangledPairs rng r with
      | error e => rw [hmp] at h; exact absurd h (by simp [Except.bind])
      | ok ps =>
        rw [hmp] at h
        simp only [Except.bind] at h
        cases hmid : pruneLoop ps g with
        | error e => rw [hmid] at h; exact absurd h (by simp [Except.bind])
        | ok gmid =>
          rw [hmid] at h
          simp only [Except.bind] at h
          by_cases hmb : gmid a b = g a b
          · obtain ⟨r', hr', hcrit', hrest'⟩ :=
              ih gmid g' h a b (by rw [hmb]; exact hne)
            exact ⟨r', List.mem_cons_of_mem _ hr', hcrit', hrest'⟩
          · have hmem := pruneLoop_changes_subset ps g gmid hmid a b hmb
            rcases mangledPairs_ok_cases rng r ps hmp with hnil | ⟨c1, c2, hcols, hps⟩
            · rw [hnil] at hmem
              exact absurd hmem (List.not_mem_nil _)
            · refine ⟨r, List.mem_cons_self r rest, hc, c1, c2, hcols, ?_⟩
              rcases hps with rfl | rfl
              · simpa [List.mem_cons, Prod.ext_iff] using hmem
              · exact Or.symm (by simpa [List.mem_cons, Prod.ext_iff] using hmem)
    · rw [if_neg hc] at h
      obtain ⟨r', hr', hcrit', hrest'⟩ := ih g g' h a b hne
      exact ⟨r', List.mem_cons_of_mem _ hr', hcrit', hrest'⟩

lemma toGraph_setEntry_zero {n : ℕ} (g : Mat α n) (i j a b : Fin n) :
    toGraph (setEntry g i j 0) a b =
      if a = i ∧ b = j then false else toGraph g a b := by
  unfold toGraph setEntry
  by_cases h : a = i ∧ b = j <;> simp [h]

lemma toGraph_setEntry_one_mono {n : ℕ} (g : Mat α n) (i j a b : Fin n)
    (h : toGraph g a b = true) : toGraph (setEntry g i j 1) a b = true := by
  unfold toGraph at h
  unfold toGraph setEntry
  by_cases hab : a = i ∧ b = j
  · simp [hab]
  · simp only [if_neg hab]
    exact h

/-- Removing one directed edge keeps the graph weakly connected provided a
directed path in the pruned graph still joins the removed edge's
endpoints, in one direction or the other. -/
lemma count_one_of_remove {n : ℕ} {g g' : Graph n} {i j : Fin n}
    (h1 : componentCount g = 1)
    (hrem : ∀ a b, g' a b = if a = i ∧ b = j then false else g a b)
    (hpath : reaches g' i j ∨ reaches g' j i) :
    componentCount g' = 1 := by
  have hn : 0 < n := pos_of_count_one h1
  have hdir : ∀ a b : Fin n, Relation.ReflTransGen (EdgeRel g') a b →
      Relation.ReflTransGen (EdgeRel (symmG g')) a b := by
    intro a b h
    refine Relation.ReflTransGen.mono ?_ h
    intro x y hxy
    unfold EdgeRel symmG at *
    simp [hxy]
  have hsymmrel : Symmetric (EdgeRel (symmG g')) := by
    intro x y hxy
    unfold EdgeRel at *
    rw [symmG_symm]
    exact hxy
  have hij : Relation.ReflTransGen (EdgeRel (symmG g')) i j := by
    rcases hpath with hp | hp
    · exact hdir i j ((reaches_iff _ _ _).mp hp)
    · exact Relation.ReflTransGen.symmetric hsymmrel
        (hdir j i ((reaches_iff _ _ _).mp hp))
  have hji : Relation.ReflTransGen (EdgeRel (symmG g')) j i :=
    Relation.ReflTransGen.symmetric hsymmrel hij
  have hstep : ∀ a b : Fin n, EdgeRel (symmG g) a b →
      Relation.ReflTransGen (EdgeRel (symmG g')) a b := by
    intro a b hab
    unfold EdgeRel symmG at hab
    rcases Bool.or_eq_true_iff.mp hab with he | he
    · by_cases hloc : a = i ∧ b = j
      · obtain ⟨rfl, rfl⟩ := hloc
        exact hij
      · have : g' a b = true := by rw [hrem a b, if_neg hloc]; exact he
        refine Relation.ReflTransGen.single ?_
        unfold EdgeRel symmG
        simp [this]
    · by_cases hloc : b = i ∧ a = j
      · obtain ⟨rfl, rfl⟩ := hloc
        exact hji
      · have : g' b a = true := by rw [hrem b a, if_neg hloc]; exact he
        refine Relation.ReflTransGen.single ?_
        unfold EdgeRel symmG
        simp [this]
  refine count_one_of_sreach_all hn ?_
  intro a b
  have hab := sreach_all_of_count_one h1 a b
  rw [reaches_iff] at hab ⊢
  induction hab with
  | refl => exact Relation.ReflTransGen.refl
  | tail _ hbc ih => exact Relation.ReflTransGen.trans ih (hstep _ _ hbc)

/-- Adding an edge (or leaving everything unchanged) keeps the graph
weakly connected. -/
lemma count_one_mono {n : ℕ} {g g' : Graph n}
    (hsub : ∀ a b, g a b = true → g' a b = true)
    (h1 : componentCount g = 1) : componentCount g' = 1 := by
  have hn : 0 < n := pos_of_count_one h1
  refine count_one_of_sreach_all hn ?_
  intro a b
  have hab := sreach_all_of_count_one h1 a b
  refine reaches_mono ?_ hab
  intro x y hxy
  unfold symmG at *
  rcases Bool.or_eq_true_iff.mp hxy with he | he
  · simp [hsub _ _ he]
  · simp [hsub _ _ he]

lemma pruneLoop_preserves_count {n : ℕ} :
    ∀ (ps : List (Fin n × Fin n)) (g g' : Mat α n),
      componentCount (toGraph g) = 1 → pruneLoop ps g = .ok g' →
        componentCount (toGraph g') = 1 := by
  intro ps
  induction ps with
  | nil => intro g g' _ h; exact absurd h (by simp [pruneLoop])
  | cons p rest ih =>
    intro g g' h1 h
    rw [pruneLoop_cons] at h
    by_cases hp : pathPreserved g p.1 p.2
    · rw [if_pos hp] at h
      rw [← Except.ok.inj h]
      exact count_one_of_remove h1 (toGraph_setEntry_zero g p.1 p.2) hp
    · rw [if_neg hp] at h
      exact ih _ _ (count_one_mono (toGraph_setEntry_one_mono g p.1 p.2) h1) h

lemma cutRows_preserves_count {n : ℕ} (rng crit : Mat α n) :
    ∀ (rs : List (Fin n)) (g g' : Mat α n),
      componentCount (toGraph g) = 1 → cutRows rng crit rs g = .ok g' →
        componentCount (toGraph g') = 1 := by
  intro rs
  induction rs with
  | nil =>
    intro g g' h1 h
    unfold cutRows at h
    rw [← Except.ok.inj h]
    exact h1
  | cons r rest ih =>
    intro g g' h1 h
    unfold cutRows at h
    by_cases hc : ∃ j, crit r j ≠ 0
    · rw [if_pos hc] at h
      cases hmp : mangledPairs rng r with
      | error e => rw [hmp] at h; exact absurd h (by simp [Except.bind])
      | ok ps =>
        rw [hmp] at h
        simp only [Except.bind] at h
        cases hmid : pruneLoop ps g with
        | error e => rw [hmid] at h; exact absurd h (by simp [Except.bind])
        | ok gmid =>
          rw [hmid] at h
          simp only [Except.bind] at h
          exact ih gmid g' (pruneLoop_preserves_count ps g gmid h1 hmid) h
    · rw [if_neg hc] at h
      exact ih g g' h1 h

/-! ### Concrete inputs for `cut_rng`

`rng₀` is a symmetric weighted triangle on nodes 0, 1, 2 (edge `(0, 2)`
is the heaviest edge of row 0) plus an isolated node 3; `crit₀` holds
the single critical connection `0 → 3`.  The union is weakly connected.
Row 0 has exactly two base edges, so the mis-indexed inner loop iterates
the pairs `(1, 2)` (the two candidate COLUMNS, first because edge
`(0, 2)` is heavier) and `(0, 0)`: it zeroes entry `(1, 2)`, finds the
path `1 → 0 → 2`, and stops — leaving both candidate edges of row 0
untouched. -/

/-- Base radius graph: triangle on nodes 0-2 plus isolated node 3. -/
def rng₀ : Mat ℤ 4 := matOfLists [[0, 1, 2, 0], [1, 0, 1, 0], [2, 1, 0, 0], [0, 0, 0, 0]] 4

/-- Critical connections: the single edge `0 → 3`. -/
def crit₀ : Mat ℤ 4 := matOfLists [[0, 0, 0, 1], [0, 0, 0, 0], [0, 0, 0, 0], [0, 0, 0, 0]] 4

/-- The matrix `cut_rng rng₀ crit₀` actually returns: the union with the
stray pair `(1, 2)` zeroed. -/
def mangledResult₀ : Mat ℤ 4 := setEntry (addM rng₀ crit₀) 1 2 0

/-- A base graph whose row 0 has three outgoing edges. -/
def rng₃ : Mat ℤ 4 := matOfLists [[0, 1, 1, 1], [1, 0, 0, 0], [1, 0, 0, 0], [1, 0, 0, 0]] 4

/-- C1, counterexample.  At `rng₀`/`crit₀` the code returns the union
with entry `(1, 2)` zeroed (a pair that is NOT a candidate edge of
row 0), while both candidate edges `(0, 1)` and `(0, 2)` of the critical
row 0 keep their weights — even though tentatively removing the
heaviest candidate `(0, 2)` would leave a directed path between its
endpoints, so under the claim it would be processed first and its
removal accepted.  The fancy indexing `indices[ind_indices]` permutes
the two ROWS of the `(2, m)` index array instead of the candidate
pairs, so the descending-weight candidate iteration the claim describes
never takes place. -/
theorem cut_rng_candidates_not_processed_cex :
    cut_rng rng₀ crit₀ = Except.ok mangledResult₀ ∧
      mangledResult₀ 0 2 = 2 ∧ mangledResult₀ 0 1 = 1 ∧
      pathPreserved (addM rng₀ crit₀) 0 2 ∧
      mangledResult₀ 1 2 = 0 := by
  refine ⟨by decide, by decide, by decide, ?_, by decide⟩
  left
  decide

/-- C1, amended.  For every base graph, working matrix and row: when the
row does not have exactly two base edges, the inner loop of `cut_rng`
fails (`IndexError` from the mis-indexed candidate array for more than
two, an unpacking `ValueError` for one, the "Difficult to find connected
graph" exception for none); when the row `r` has exactly the two base
edges `(r, c1)`, `(r, c2)`, the loop iterates the pairs `(r, r)` and
`(c1, c2)` — with `(c1, c2)` first exactly when the second edge is
heavier — tentatively zeroing each and keeping it zeroed iff a directed
path between its endpoints survives (trivially so for `(r, r)`),
restoring the entry with weight 1 otherwise, and stops at the first pair
whose zeroing preserves a path; the claimed candidate edges `(r, c1)`
and `(r, c2)` are never tentatively removed. -/
theorem cut_rng_mangled_row_characterization {n : ℕ} (rng : Mat α n)
    (r : Fin n) (g : Mat α n) :
    ((rowCols rng r).length ≠ 2 →
      ∃ e, (mangledPairs rng r).bind (fun ps => pruneLoop ps g) =
        Except.error e) ∧
    (∀ c1 c2, rowCols rng r = [c1, c2] →
      (mangledPairs rng r).bind (fun ps => pruneLoop ps g) =
        Except.ok (if rng r c2 ≤ rng r c1 then setEntry g r r 0
          else if pathPreserved g c1 c2 then setEntry g c1 c2 0
          else setEntry (setEntry g c1 c2 1) r r 0)) := by
  constructor
  · intro hlen
    match hcols : rowCols rng r with
    | [] =>
      refine ⟨"Difficult to find connected graph", ?_⟩
      have hmp : mangledPairs rng r = .ok [] := by
        unfold mangledPairs
        rw [hcols]
      rw [hmp]
      simp [pruneLoop, Except.bind]
    | [c] =>
      refine ⟨"not enough values to unpack", ?_⟩
      have hmp : mangledPairs rng r = .error "not enough values to unpack" := by
        unfold mangledPairs
        rw [hcols]
      rw [hmp]
      rfl
    | [c1, c2] =>
      rw [hcols] at hlen
      simp at hlen
    | c1 :: c2 :: c3 :: l =>
      refine ⟨"index out of bounds for axis 0 with size 2", ?_⟩
      have hmp : mangledPairs rng r =
          .error "index out of bounds for axis 0 with size 2" := by
        unfold mangledPairs
        rw [hcols]
      rw [hmp]
      rfl
  · intro c1 c2 hcols
    have hmp : mangledPairs rng r =
        if rng r c2 ≤ rng r c1 then Except.ok [(r, r), (c1, c2)]
        else Except.ok [(c1, c2), (r, r)] := by
      unfold mangledPairs
      rw [hcols]
    rw [hmp]
    by_cases hw : rng r c2 ≤ rng r c1
    · simp only [if_pos hw]
      show pruneLoop [(r, r), (c1, c2)] g = Except.ok (setEntry g r r 0)
      rw [pruneLoop_cons, if_pos (pathPreserved_diag g r)]
    · simp only [if_neg hw]
      show pruneLoop [(c1, c2), (r, r)] g = _
      rw [pruneLoop_cons]
      by_cases hp : pathPreserved g c1 c2
      · simp only [if_pos hp]
      · simp only [if_neg hp]
        rw [pruneLoop_cons, if_pos (pathPreserved_diag _ r)]

/-- C1, witness for the amended theorem: `rng₃`'s row 0 has three base
edges and the row loop fails; `rng₀`'s row 0 has exactly two and the row
loop returns the characterized matrix. -/
theorem cut_rng_mangled_row_witness :
    (∃ e, (mangledPairs rng₃ 0).bind (fun ps => pruneLoop ps rng₃) =
      Except.error e) ∧
    ((mangledPairs rng₀ 0).bind (fun ps => pruneLoop ps (addM rng₀ crit₀)) =
      Except.ok (if rng₀ 0 2 ≤ rng₀ 0 1 then setEntry (addM rng₀ crit₀) 0 0 0
        else if pathPreserved (addM rng₀ crit₀) 1 2 then
          setEntry (addM rng₀ crit₀) 1 2 0
        else setEntry (setEntry (addM rng₀ crit₀) 1 2 1) 0 0 0)) :=
  ⟨(cut_rng_mangled_row_characterization rng₃ 0 rng₃).1 (by decide),
   (cut_rng_mangled_row_characterization rng₀ 0 (addM rng₀ crit₀)).2
     1 2 (by decide)⟩

/-- C5.  If the union of the base graph and the critical connections is a
single weak component, then every matrix `cut_rng` returns is still a
single weak component: every entry the mangled inner loop zeroes —
diagonal pair or stray `(c1, c2)` pair alike — is guarded by the
reachability check between its endpoints, every rejected zeroing is
restored with weight 1, and no other entry changes. -/
theorem cut_rng_preserves_one_component {n : ℕ} (rng crit : Mat α n)
    (h1 : componentCount (toGraph (addM rng crit)) = 1) (g : Mat α n)
    (h : cut_rng rng crit = .ok g) : componentCount (toGraph g) = 1 :=
  cutRows_preserves_count rng crit (List.finRange n) (addM rng crit) g h1 h

/-- C5, witness at the concrete input `rng₀`/`crit₀`. -/
theorem cut_rng_preserves_one_component_witness :
    componentCount (toGraph (addM rng₀ crit₀)) = 1 ∧
      componentCount (toGraph mangledResult₀) = 1 :=
  ⟨by decide,
    cut_rng_preserves_one_component rng₀ crit₀ (by decide) mangledResult₀
      (by decide)⟩

/-- Base graph for the critical-edge-erasure counterexample: row 0 has
the two base edges `(0, 1)` (weight 1) and `(0, 2)` (weight 2); row 1
has the two base edges `(1, 0)` and `(1, 3)`; nodes 2 and 3 point back
to 0. -/
def rng₂ : Mat ℤ 4 := matOfLists [[0, 1, 2, 0], [1, 0, 0, 1], [1, 0, 0, 0], [1, 0, 0, 0]] 4

/-- Critical connections `0 → 3` and `1 → 2`; both sit at positions
where the base graph is zero (they join otherwise-disconnected parts). -/
def crit₂ : Mat ℤ 4 := matOfLists [[0, 0, 0, 1], [0, 0, 1, 0], [0, 0, 0, 0], [0, 0, 0, 0]] 4

/-- What `cut_rng rng₂ crit₂` returns: processing row 0 zeroes the stray
pair `(1, 2)` — erasing the critical edge stored there — and processing
row 1 zeroes the (already zero) diagonal entry `(1, 1)`. -/
def mangledResult₂ : Mat ℤ 4 :=
  setEntry (setEntry (addM rng₂ crit₂) 1 2 0) 1 1 0

/-- C6, counterexample.  `(1, 2)` is a critical connection and not a base
edge, and the union of base graph and critical connections is one weak
component; yet the returned matrix has entry `(1, 2)` zeroed: the
mis-indexed candidate array makes `cut_rng` zero the pair formed by
row 0's two candidate columns, which here carries a critical edge.  So
the pruner's removal targets are not confined to base-graph edges, and
critical connections are not protected. -/
theorem cut_rng_erases_critical_edge_cex :
    cut_rng rng₂ crit₂ = Except.ok mangledResult₂ ∧
      crit₂ 1 2 ≠ 0 ∧ rng₂ 1 2 = 0 ∧
      componentCount (toGraph (addM rng₂ crit₂)) = 1 ∧
      mangledResult₂ 1 2 = 0 := by
  refine ⟨by decide, by decide, by decide, by decide, by decide⟩

/-- C6, amended.  In a successful run, the only entries `cut_rng`
modifies are, for each row `r` with a critical outgoing connection (such
rows necessarily have exactly two base edges `(r, c1)`, `(r, c2)`, or
the call fails): the diagonal entry `(r, r)` and the entry `(c1, c2)`.
These positions need not be base-graph edges — in particular a critical
connection sitting at such a `(c1, c2)` position can be erased. -/
theorem cut_rng_modified_positions {n : ℕ} (rng crit : Mat α n)
    (g' : Mat α n) (h : cut_rng rng crit = .ok g') (a b : Fin n)
    (hne : g' a b ≠ addM rng crit a b) :
    ∃ r, (∃ j, crit r j ≠ 0) ∧ ∃ c1 c2, rowCols rng r = [c1, c2] ∧
      ((a = r ∧ b = r) ∨ (a = c1 ∧ b = c2)) := by
  obtain ⟨r, _, hcrit, hrest⟩ :=
    cutRows_changes_mangled rng crit (List.finRange n) _ g' h a b hne
  exact ⟨r, hcrit, hrest⟩

/-- C6, witness for the amended theorem: at `rng₂`/`crit₂` the changed
entry `(1, 2)` is accounted for by critical row 0 and its candidate
columns 1, 2. -/
theorem cut_rng_modified_positions_witness :
    ∃ r, (∃ j, crit₂ r j ≠ 0) ∧ ∃ c1 c2, rowCols rng₂ r = [c1, c2] ∧
      (((1 : Fin 4) = r ∧ (2 : Fin 4) = r) ∨
        ((1 : Fin 4) = c1 ∧ (2 : Fin 4) = c2)) :=
  cut_rng_modified_positions rng₂ crit₂ mangledResult₂ (by decide) 1 2
    (by decide)

/-! ### Component labels

`connected_components` also returns a label per node; labels are assigned
in first-seen node order, which is the same as numbering the components by
increasing smallest member. -/

/-- The component representatives in increasing node order (the
representatives are exactly the fixed points of `compRepr`, and filtering
`finRange` keeps them in increasing order — scipy's first-seen label
order). -/
def sortedReprs {n : ℕ} (g : Graph n) : List (Fin n) :=
  (List.finRange n).filter (fun i => compRepr g i = i)

lemma compRepr_idem {n : ℕ} (g : Graph n) (i : Fin n) :
    compRepr g (compRepr g i) = compRepr g i :=
  (compRepr_eq_of_sreach (sreach_compRepr g i)).symm

lemma mem_sortedReprs_iff {n : ℕ} (g : Graph n) (x : Fin n) :
    x ∈ sortedReprs g ↔ compRepr g x = x := by
  unfold sortedReprs
  rw [List.mem_filter]
  simp [List.mem_finRange]

lemma sortedReprs_nodup {n : ℕ} (g : Graph n) : (sortedReprs g).Nodup :=
  (List.nodup_finRange n).filter _

lemma toFinset_sortedReprs {n : ℕ} (g : Graph n) :
    (sortedReprs g).toFinset = Finset.univ.image (compRepr g) := by
  ext x
  rw [List.mem_toFinset, mem_sortedReprs_iff]
  simp only [Finset.mem_image, Finset.mem_univ, true_and]
  constructor
  · intro h
    exact ⟨x, h⟩
  · rintro ⟨i, rfl⟩
    exact compRepr_idem g i

lemma length_sortedReprs {n : ℕ} (g : Graph n) :
    (sortedReprs g).length = componentCount g := by
  rw [componentCount, ← toFinset_sortedReprs]
  exact (List.toFinset_card_of_nodup (sortedReprs_nodup g)).symm

lemma compRepr_mem_sortedReprs {n : ℕ} (g : Graph n) (i : Fin n) :
    compRepr g i ∈ sortedReprs g := by
  rw [mem_sortedReprs_iff]
  exact compRepr_idem g i

/-- The label array returned by `connected_components`: node `i` is
labelled with the index of its component. -/
def labelsF {n : ℕ} (g : Graph n) (i : Fin n) : Fin (componentCount g) :=
  ⟨(sortedReprs g).indexOf (compRepr g i), by
    rw [← length_sortedReprs g]
    exact List.indexOf_lt_length.mpr (compRepr_mem_sortedReprs g i)⟩

lemma labelsF_surjective {n : ℕ} (g : Graph n) :
    Function.Surjective (labelsF g) := by
  intro p
  have hlen : p.val < (sortedReprs g).length := by
    rw [length_sortedReprs]
    exact p.isLt
  have hmem : (sortedReprs g).get ⟨p.val, hlen⟩ ∈ sortedReprs g :=
    List.get_mem _ _ hlen
  have hfix : compRepr g ((sortedReprs g).get ⟨p.val, hlen⟩) =
      (sortedReprs g).get ⟨p.val, hlen⟩ :=
    (mem_sortedReprs_iff g _).mp hmem
  refine ⟨(sortedReprs g).get ⟨p.val, hlen⟩, Fin.ext ?_⟩
  show (sortedReprs g).indexOf
    (compRepr g ((sortedReprs g).get ⟨p.val, hlen⟩)) = p.val
  rw [hfix]
  have hnd : (sortedReprs g).Nodup := sortedReprs_nodup g
  simpa using List.indexOf_getElem hnd p.val hlen

/-! ### `concat_cluster` — the ClusterDistanceReducer

Embeds `concat_cluster` (source lines 17-42, and the identical method at
lines 254-279) in the form used by nature mode (`prev_indices = None`):

```
next_dmatrix = np.empty((n_components, n_components))
for i in range(n_components):
    for j in range(n_components):
        if i == j:
            next_dmatrix[i][j] = INF
        else:
            cropped_dmatrix = prev_dmatrix[labels == i][:, labels == j]
            d_argmin = np.argmin(cropped_dmatrix)
            next_dmatrix[i][j] = cropped_dmatrix.flatten()[d_argmin]
return next_dmatrix
```

`np.argmin` of the flattened block picks (the first occurrence of) the
block's minimum, so the entry written is the block minimum; on an empty
block `np.argmin` raises, which the embedding models as `none`.  The
source's squareness check (`prev_dmatrix` must be square) is enforced by
the `Mat` type itself. -/

/-- The block of index pairs whose rows carry label `p` and whose columns
carry label `q` (`prev_dmatrix[labels == i][:, labels == j]`). -/
def clusterBlock {m C : ℕ} (labels : Fin m → Fin C) (p q : Fin C) :
    Finset (Fin m × Fin m) :=
  Finset.univ.filter (fun ij => labels ij.1 = p ∧ labels ij.2 = q)

/-- `concat_cluster(prev_dmatrix, n_components, labels)`. -/
def concat_cluster {m C : ℕ} (M : Mat α m) (labels : Fin m → Fin C) :
    Option (Fin C → Fin C → α) :=
  if h : ∀ p q : Fin C, p ≠ q → (clusterBlock labels p q).Nonempty then
    some (fun p q =>
      if hpq : p = q then INF α
      else ((clusterBlock labels p q).image (fun ij => M ij.1 ij.2)).min'
        ((h p q hpq).image _))
  else none

/-- Shared characterization of `concat_cluster` when every cluster is
inhabited: it succeeds, the diagonal is the sentinel, and each off-diagonal
entry is the minimum of its block. -/
lemma concat_cluster_spec {m C : ℕ} (M : Mat α m) (labels : Fin m → Fin C)
    (hsurj : ∀ p : Fin C, ∃ i, labels i = p) :
    ∃ M', concat_cluster M labels = some M' ∧
      (∀ p, M' p p = INF α) ∧
      ∀ p q, p ≠ q →
        (∃ i j, labels i = p ∧ labels j = q ∧ M' p q = M i j) ∧
        (∀ i j, labels i = p → labels j = q → M' p q ≤ M i j) := by
  have hne : ∀ p q : Fin C, p ≠ q → (clusterBlock labels p q).Nonempty := by
    intro p q _
    obtain ⟨i, hi⟩ := hsurj p
    obtain ⟨j, hj⟩ := hsurj q
    exact ⟨(i, j), by simp [clusterBlock, hi, hj]⟩
  refine ⟨_, by rw [concat_cluster, dif_pos hne], fun p => by simp, ?_⟩
  intro p q hpq
  constructor
  · have hmem := Finset.min'_mem
      ((clusterBlock labels p q).image (fun ij => M ij.1 ij.2))
      ((hne p q hpq).image _)
    rw [Finset.mem_image] at hmem
    obtain ⟨ij, hij, hval⟩ := hmem
    rw [clusterBlock, Finset.mem_filter] at hij
    refine ⟨ij.1, ij.2, hij.2.1, hij.2.2, ?_⟩
    rw [dif_neg hpq]
    exact hval.symm
  · intro i j hi hj
    have hmem : M i j ∈ (clusterBlock labels p q).image (fun ij => M ij.1 ij.2) := by
      rw [Finset.mem_image]
      exact ⟨(i, j), by simp [clusterBlock, hi, hj], rfl⟩
    rw [dif_neg hpq]
    exact Finset.min'_le _ _ hmem

/-- C3.  For every square matrix `M` and label array hitting each of the
`C` clusters, `concat_cluster` returns the `C × C` matrix whose diagonal is
the infinite sentinel and whose entry `(p, q)`, `p ≠ q`, is the minimum of
`M i j` over `labels i = p`, `labels j = q` (stated as: it is attained at
such a pair and is a lower bound of the block). -/
theorem concat_cluster_min_and_diag {m C : ℕ} (M : Mat α m)
    (labels : Fin m → Fin C)
    (hsurj : ∀ p : Fin C, ∃ i, labels i = p) :
    ∃ M', concat_cluster M labels = some M' ∧
      (∀ p, M' p p = INF α) ∧
      ∀ p q, p ≠ q →
        (∃ i j, labels i = p ∧ labels j = q ∧ M' p q = M i j) ∧
        (∀ i j, labels i = p → labels j = q → M' p q ≤ M i j) :=
  concat_cluster_spec M labels hsurj

/-- The spec's own example input for the reducer: 4 points in 2 clusters
of 2 ({0,1} and {2,3}). -/
def clusterMat₄ : Mat ℤ 4 :=
  matOfLists [[0, 1, 5, 6], [1, 0, 7, 8], [5, 7, 0, 2], [6, 8, 2, 0]] 4

/-- Labels for `clusterMat₄`: points 0,1 ↦ cluster 0; points 2,3 ↦ 1. -/
def clusterLabels₄ : Fin 4 → Fin 2 := fun i => if i.val < 2 then 0 else 1

/-- C3, witness at the spec's 4-point, 2-cluster example. -/
theorem concat_cluster_min_and_diag_witness :
    ∃ M', concat_cluster clusterMat₄ clusterLabels₄ = some M' ∧
      (∀ p, M' p p = INF ℤ) ∧
      ∀ p q, p ≠ q →
        (∃ i j, clusterLabels₄ i = p ∧ clusterLabels₄ j = q ∧
          M' p q = clusterMat₄ i j) ∧
        (∀ i j, clusterLabels₄ i = p → clusterLabels₄ j = q →
          M' p q ≤ clusterMat₄ i j) :=
  concat_cluster_min_and_diag clusterMat₄ clusterLabels₄ (by decide)

/-! ### `connect_rng` — the ConnectivityEnforcer, nature mode

Embeds `CkNearestNeighbors.connect_rng` (source lines 304-354) with
`minimize=False` (nature mode), the branch the claims address:

```
rng = radius_neighbors_graph(dmatrix, radius, metric='precomputed')
n_components, labels = connected_components(rng)
cropped_dmatrix = dmatrix
while n_components != 1:
    cropped_dmatrix = concat_cluster(cropped_dmatrix, n_components, labels)
    argmin_dmatrix = np.argmin(cropped_dmatrix, axis=1)
    r_ptr = np.arange(cropped_dmatrix.shape[0])
    radius = np.max(cropped_dmatrix[r_ptr, argmin_dmatrix])
    rng = radius_neighbors_graph(cropped_dmatrix, radius, metric='precomputed')
    n_components, labels = connected_components(rng)
...
self.delta = radius
return radius_neighbors_graph(dmatrix, radius, metric='precomputed')
```

The loop state is the current cluster matrix (whose dimension shrinks each
round) together with the current radius; the invariant is that the graph
whose components drive the loop is always the radius graph of the current
cluster matrix at the current radius.  The Python `while` has no fuel, so
the embedding uses fuel and returns `none` when it is exhausted (or when
`concat_cluster`/`np.argmin` would raise). -/

/-- `sklearn.radius_neighbors_graph(D, r, metric='precomputed')`: a
connectivity graph joining distinct points at distance `≤ r`
(`include_self=False`, the default). -/
def radiusGraph {m : ℕ} (D : Mat α m) (r : α) : Graph m :=
  fun i j => decide (i ≠ j) && decide (D i j ≤ r)

/-- The merging-loop state: the current cluster matrix and radius. -/
abbrev NState (α : Type) := Σ m : ℕ, Mat α m × α

/-- The graph on which `connected_components` is called at the top of each
round: the radius graph of the current cluster matrix. -/
def roundGraph (s : NState α) : Graph s.1 := radiusGraph s.2.1 s.2.2

/-- One iteration of the `while` body: reduce the matrix with
`concat_cluster`, set the radius to the maximum over rows of the row
minimum (`np.max(cropped[r_ptr, argmin_dmatrix])`), and continue with the
cluster matrix.  `none` models `np.argmin` raising on an empty axis. -/
def natureStep (s : NState α) : Option (NState α) :=
  match concat_cluster s.2.1 (labelsF (roundGraph s)) with
  | none => none
  | some M' =>
    if hC : (Finset.univ :
        Finset (Fin (componentCount (roundGraph s)))).Nonempty then
      some ⟨componentCount (roundGraph s),
        (M', (Finset.univ.image
          (fun p => (Finset.univ.image (M' p)).min' (hC.image _))).max'
            (hC.image _))⟩
    else none

/-- The `while n_components != 1` loop, with fuel. -/
def natureLoop : ℕ → NState α → Option α
  | 0, s => if componentCount (roundGraph s) = 1 then some s.2.2 else none
  | fuel + 1, s =>
    if componentCount (roundGraph s) = 1 then some s.2.2
    else (natureStep s).bind (natureLoop fuel)

/-- `connect_rng(dmatrix, radius)` in nature mode: run the merging loop,
then build the returned graph from the original matrix at the final
radius; the final radius is also reported back (stored into
`self.delta`/`self.k`). -/
def connect_rng {n : ℕ} (D : Mat α n) (r : α) : Option (Graph n × α) :=
  (natureLoop n ⟨n, (D, r)⟩).map (fun rad => (radiusGraph D rad, rad))

lemma dim_pos_of_count_pos {n : ℕ} {g : Graph n}
    (h : 0 < componentCount g) : 0 < n := by
  by_contra hn
  have hn0 : n = 0 := by omega
  subst hn0
  unfold componentCount at h
  simp [Finset.univ_eq_empty] at h

/-- `r` is the maximum over clusters `p` of the minimum inter-cluster
distance `min over q ≠ p of M p q` (the claim's description of the new
threshold), characterized order-theoretically: every cluster has a
neighbour within `r`, and some cluster has no strictly closer bound. -/
def maxMinOffDiag {C : ℕ} (M : Fin C → Fin C → α) (r : α) : Prop :=
  (∀ p, ∃ q, q ≠ p ∧ M p q ≤ r) ∧ ∃ p, ∀ q, q ≠ p → r ≤ M p q

/-- Workhorse for one nature-mode round with `C ≥ 2` components and
finite off-diagonal entries: `concat_cluster` succeeds, the step produces
the cluster matrix together with the `max-of-row-minima` threshold, that
threshold is `max_p min_q` over the off-diagonal entries, the new matrix
again has finite off-diagonal entries, and the new round graph has
strictly fewer components. -/
lemma natureStep_spec (s : NState α)
    (hfin : ∀ p q : Fin s.1, p ≠ q → s.2.1 p q < INF α)
    (h2 : 2 ≤ componentCount (roundGraph s)) :
    ∃ (M' : Fin (componentCount (roundGraph s)) →
        Fin (componentCount (roundGraph s)) → α) (r' : α),
      concat_cluster s.2.1 (labelsF (roundGraph s)) = some M' ∧
      natureStep s = some ⟨componentCount (roundGraph s), (M', r')⟩ ∧
      maxMinOffDiag M' r' ∧
      (∀ p q, p ≠ q → M' p q < INF α) ∧
      componentCount (radiusGraph M' r') < componentCount (roundGraph s) := by
  obtain ⟨M', hconcat, hdiag, hmin⟩ :=
    concat_cluster_spec s.2.1 (labelsF (roundGraph s))
      (fun p => labelsF_surjective (roundGraph s) p)
  have h0lt : 0 < componentCount (roundGraph s) := by omega
  have h1lt : 1 < componentCount (roundGraph s) := by omega
  have hCne : (Finset.univ :
      Finset (Fin (componentCount (roundGraph s)))).Nonempty :=
    ⟨⟨0, h0lt⟩, Finset.mem_univ _⟩
  have hoff : ∀ p q, p ≠ q → M' p q < INF α := by
    intro p q hpq
    obtain ⟨⟨i, j, hi, hj, hval⟩, _⟩ := hmin p q hpq
    have hij : i ≠ j := by
      intro he
      subst he
      rw [hi] at hj
      exact hpq hj
    rw [hval]
    exact hfin i j hij
  -- the row minimum is attained off the diagonal and is at most the
  -- `max'` radius
  have hrow : ∀ p : Fin (componentCount (roundGraph s)),
      ∃ j₀, j₀ ≠ p ∧
        M' p j₀ = (Finset.univ.image (M' p)).min' (hCne.image _) ∧
        M' p j₀ ≤ (Finset.univ.image
          (fun p => (Finset.univ.image (M' p)).min' (hCne.image _))).max'
            (hCne.image _) := by
    intro p
    have hrowne : (Finset.univ.image (M' p)).Nonempty := hCne.image _
    have hminmem := Finset.min'_mem _ hrowne
    rw [Finset.mem_image] at hminmem
    obtain ⟨j₀, _, hj₀⟩ := hminmem
    obtain ⟨q1, hq1p⟩ : ∃ q1, q1 ≠ p := by
      by_cases hp : p.val = 0
      · exact ⟨⟨1, h1lt⟩, fun he => by rw [← he] at hp; simp at hp⟩
      · exact ⟨⟨0, h0lt⟩, fun he => by rw [← he] at hp; simp at hp⟩
    have hle1 : (Finset.univ.image (M' p)).min' hrowne ≤ M' p q1 :=
      Finset.min'_le _ _ (Finset.mem_image_of_mem _ (Finset.mem_univ q1))
    have hltINF : (Finset.univ.image (M' p)).min' hrowne < INF α :=
      lt_of_le_of_lt hle1 (hoff p q1 (Ne.symm hq1p))
    have hj₀ne : j₀ ≠ p := by
      intro he
      rw [he, hdiag p] at hj₀
      rw [← hj₀] at hltINF
      exact lt_irrefl _ hltINF
    have hmem2 : (Finset.univ.image (M' p)).min' (hCne.image _) ∈
        Finset.univ.image
          (fun p => (Finset.univ.image (M' p)).min' (hCne.image _)) := by
      rw [Finset.mem_image]
      exact ⟨p, Finset.mem_univ p, rfl⟩
    refine ⟨j₀, hj₀ne, hj₀, ?_⟩
    rw [hj₀]
    exact Finset.le_max' _ _ hmem2
  refine ⟨M', (Finset.univ.image
      (fun p => (Finset.univ.image (M' p)).min' (hCne.image _))).max'
        (hCne.image _), hconcat, ?_, ⟨?_, ?_⟩, hoff, ?_⟩
  · simp only [natureStep, hconcat]
    rw [dif_pos hCne]
  · -- every cluster p has a neighbour within the new radius
    intro p
    obtain ⟨j₀, hj₀ne, _, hle⟩ := hrow p
    exact ⟨j₀, hj₀ne, hle⟩
  · -- the radius is attained as some cluster's row minimum
    have hmaxmem := Finset.max'_mem
      (Finset.univ.image
        (fun p => (Finset.univ.image (M' p)).min' (hCne.image _)))
      (hCne.image _)
    rw [Finset.mem_image] at hmaxmem
    obtain ⟨pstar, _, hpstar⟩ := hmaxmem
    refine ⟨pstar, ?_⟩
    intro q _
    rw [← hpstar]
    exact Finset.min'_le _ _ (Finset.mem_image_of_mem _ (Finset.mem_univ q))
  · -- the new round graph merges at least two clusters
    obtain ⟨j₀, hj₀ne, _, hle⟩ := hrow ⟨0, h0lt⟩
    have hedge : radiusGraph M'
        ((Finset.univ.image
          (fun p => (Finset.univ.image (M' p)).min' (hCne.image _))).max'
            (hCne.image _)) ⟨0, h0lt⟩ j₀ = true := by
      unfold radiusGraph
      have h1 : (⟨0, h0lt⟩ : Fin (componentCount (roundGraph s))) ≠ j₀ :=
        fun he => hj₀ne he.symm
      simp [h1, hle]
    exact componentCount_lt_of_edge (fun he => hj₀ne he.symm) hedge

/-- The merging loop reaches a single component (and returns the final
radius) whenever the fuel is at least `C - 1`. -/
lemma natureLoop_terminates : ∀ (fuel : ℕ) (s : NState α),
    0 < s.1 →
    (∀ p q : Fin s.1, p ≠ q → s.2.1 p q < INF α) →
    componentCount (roundGraph s) ≤ fuel + 1 →
    ∃ rad, natureLoop fuel s = some rad := by
  intro fuel
  induction fuel with
  | zero =>
    intro s hpos hfin hle
    have h1 : componentCount (roundGraph s) = 1 :=
      le_antisymm hle (componentCount_pos _ hpos)
    exact ⟨s.2.2, by rw [natureLoop, if_pos h1]⟩
  | succ fuel ih =>
    intro s hpos hfin hle
    by_cases h1 : componentCount (roundGraph s) = 1
    · exact ⟨s.2.2, by rw [natureLoop, if_pos h1]⟩
    · have h2 : 2 ≤ componentCount (roundGraph s) := by
        have := componentCount_pos (roundGraph s) hpos
        omega
      obtain ⟨M', r', _, hstep, _, hoff, hlt⟩ := natureStep_spec s hfin h2
      have heq : componentCount (roundGraph
          (⟨componentCount (roundGraph s), (M', r')⟩ : NState α)) =
          componentCount (radiusGraph M' r') := rfl
      obtain ⟨rad, hrad⟩ := ih ⟨componentCount (roundGraph s), (M', r')⟩
        (by show 0 < componentCount (roundGraph s); omega) hoff
        (by rw [heq]; omega)
      refine ⟨rad, ?_⟩
      rw [natureLoop, if_neg h1, hstep]
      exact hrad

/-- C4.  For every input matrix with finite off-diagonal entries whose
base radius graph has `C ≥ 2` weak components, the nature-mode merging
loop of `connect_rng` terminates within `C - 1` rounds, reaching a single
component; each round strictly decreases the component count
(`natureStep_spec`). -/
theorem connect_rng_terminates_within_bound {n : ℕ} (D : Mat α n) (r : α)
    (hfin : ∀ i j : Fin n, i ≠ j → D i j < INF α)
    (h2 : 2 ≤ componentCount (radiusGraph D r)) :
    ∃ rad, natureLoop (componentCount (radiusGraph D r) - 1)
      (⟨n, (D, r)⟩ : NState α) = some rad := by
  have h2' : 2 ≤ componentCount (roundGraph (⟨n, (D, r)⟩ : NState α)) := h2
  have hpos : 0 < n := dim_pos_of_count_pos (show 0 < componentCount
    (radiusGraph D r) by omega)
  have heq : componentCount (roundGraph (⟨n, (D, r)⟩ : NState α)) =
      componentCount (radiusGraph D r) := rfl
  exact natureLoop_terminates _ _ hpos hfin (by rw [heq]; omega)

/-- Concrete nature-mode input: points 0 and 1 are near each other, point
2 is far away, so the radius graph at radius 2 has two components. -/
def natureD₃ : Mat ℤ 3 := matOfLists [[0, 1, 10], [1, 0, 12], [10, 12, 0]] 3

/-- C4, witness at the concrete 3-point input (2 components, 1 round). -/
theorem connect_rng_terminates_within_bound_witness :
    ∃ rad, natureLoop (componentCount (radiusGraph natureD₃ 2) - 1)
      (⟨3, (natureD₃, 2)⟩ : NState ℤ) = some rad :=
  connect_rng_terminates_within_bound natureD₃ 2 (by decide) (by decide)

/-- C8.  If the base radius graph is already one component the merging
loop exits immediately: `connect_rng` returns exactly the radius graph of
the input matrix at the input threshold, and reports the input threshold
back unchanged (the value stored into `self.delta`). -/
theorem connect_rng_idempotent_on_connected {n : ℕ} (D : Mat α n) (r : α)
    (h1 : componentCount (radiusGraph D r) = 1) :
    connect_rng D r = some (radiusGraph D r, r) := by
  have h1' : componentCount (roundGraph (⟨n, (D, r)⟩ : NState α)) = 1 := h1
  unfold connect_rng
  cases n with
  | zero => exact absurd (pos_of_count_one h1) (by simp)
  | succ k =>
    have hloop : natureLoop (k + 1) (⟨k + 1, (D, r)⟩ : NState α) = some r := by
      rw [natureLoop, if_pos h1']
    rw [hloop]
    rfl

/-- Concrete connected input for the idempotence witness. -/
def natureD₂ : Mat ℤ 2 := matOfLists [[0, 1], [1, 0]] 2

/-- C8, witness: at radius 2 the 2-point graph is connected, and
`connect_rng` returns it unchanged together with the input radius. -/
theorem connect_rng_idempotent_witness :
    connect_rng natureD₂ 2 = some (radiusGraph natureD₂ 2, 2) :=
  connect_rng_idempotent_on_connected natureD₂ 2 (by decide)

/-- The graph the code's merging round actually recomputes components on:
the radius graph of the `C × C` cluster matrix at the new threshold. -/
def codeRoundGraph (s : NState α) : Option (Σ m : ℕ, Graph m) :=
  (natureStep s).map (fun s' => ⟨s'.1, roundGraph s'⟩)

/-- Modelled from the spec: the claim says each round "rebuilds the radius
graph from the original input distance matrix at that new threshold", so
this variant builds the round graph from the original `n × n` matrix `D`
at the new threshold.  Defined only to compare with `codeRoundGraph`. -/
def specRoundGraph {n : ℕ} (D : Mat α n) (s : NState α) :
    Option (Σ m : ℕ, Graph m) :=
  (natureStep s).map (fun s' => ⟨n, radiusGraph D s'.2.2⟩)

/-- C2, counterexample.  On the 3-point input with two components, the
round graph the code builds is the radius graph of the `2 × 2` cluster
matrix — not the radius graph of the original `3 × 3` matrix that the
claim describes (the two are different graphs; they do not even live on
the same node set). -/
theorem connect_rng_rebuild_not_from_original_cex :
    codeRoundGraph (⟨3, (natureD₃, 2)⟩ : NState ℤ) ≠
      specRoundGraph natureD₃ (⟨3, (natureD₃, 2)⟩ : NState ℤ) := by
  decide

/-- C2, amended.  Every round with `C ≥ 2` components (and finite
off-diagonal entries) sets the new threshold to `max_p min_q` of the
off-diagonal cluster-distance entries — that part of the claim holds —
but rebuilds the radius graph from the `C × C` cluster distance matrix at
that threshold, not from the original input matrix; the original matrix
is used only for the final returned graph. -/
theorem connect_rng_round_threshold_cluster_rebuild (s s' : NState α)
    (hfin : ∀ p q : Fin s.1, p ≠ q → s.2.1 p q < INF α)
    (h2 : 2 ≤ componentCount (roundGraph s))
    (hstep : natureStep s = some s') :
    s'.1 = componentCount (roundGraph s) ∧
    ∃ M', concat_cluster s.2.1 (labelsF (roundGraph s)) = some M' ∧
      HEq s'.2.1 M' ∧ maxMinOffDiag M' s'.2.2 := by
  obtain ⟨M', r', hconcat, hstep', hmaxmin, _, _⟩ := natureStep_spec s hfin h2
  rw [hstep'] at hstep
  obtain rfl := Option.some.inj hstep
  exact ⟨rfl, M', hconcat, HEq.rfl, hmaxmin⟩

/-- The state after the first round on `natureD₃` at radius 2: clusters
{0, 1} and {2}, cluster distance 10, new radius 10. -/
def natureS₁ : NState ℤ :=
  (natureStep (⟨3, (natureD₃, 2)⟩ : NState ℤ)).get (by decide)

/-- C2, witness for the amended theorem at the concrete 3-point input. -/
theorem connect_rng_round_threshold_witness :
    (natureS₁.1 =
      componentCount (roundGraph (⟨3, (natureD₃, 2)⟩ : NState ℤ))) ∧
    ∃ M', concat_cluster (⟨3, (natureD₃, 2)⟩ : NState ℤ).2.1
        (labelsF (roundGraph (⟨3, (natureD₃, 2)⟩ : NState ℤ))) = some M' ∧
      HEq natureS₁.2.1 M' ∧ maxMinOffDiag M' natureS₁.2.2 :=
  connect_rng_round_threshold_cluster_rebuild
    (⟨3, (natureD₃, 2)⟩ : NState ℤ) natureS₁
    (by decide) (by decide) (Option.some_get (by decide)).symm

/-! ### DensityNormalizer (source lines 184-187)

```
darray_n_nbrs = np.partition(dmatrix, n_neighbors)
ratio_matrix = dmatrix / np.sqrt(darray_n_nbrs.dot(darray_n_nbrs.T))
cr_ptr = np.arange(n_samples)
ratio_matrix[cr_ptr, cr_ptr] = 0
```

Line 184 keeps the whole row-partitioned matrix (there is no
`[:, [n_neighbors]]` column selection), so `darray_n_nbrs` is `N × N` and
the denominator under the square root at entry `(i, j)` is the dot
product of the entire partitioned rows `i` and `j` — not
`a[i] * a[j]` with `a[i]` the `n`-th nearest-neighbour distance. -/

/-- One row of the matrix as a list (row-major). -/
def rowList {m : ℕ} (D : Mat α m) (i : Fin m) : List α :=
  (List.finRange m).map (D i)

/-- `np.partition(dmatrix, kth)` guarantees the entry at position `kth`
of each row is in its sorted position, with no larger entry before and no
smaller entry after; the order within the two sides is unspecified
(introselect).  The embedding realizes the partition contract with the
fully sorted row — a valid partition output (on the witness input below
every valid partition coincides with the full sort). -/
def partitionRow {m : ℕ} (D : Mat α m) (i : Fin m) : List α :=
  List.insertionSort (· ≤ ·) (rowList D i)

/-- Entry `k` of the partitioned row `i`. -/
def partitioned {m : ℕ} (D : Mat α m) (i : Fin m) (k : ℕ) : α :=
  (partitionRow D i).getD k 0

/-- `darray_n_nbrs.dot(darray_n_nbrs.T)` at entry `(i, j)`: what the code
actually puts under the square root of the ratio denominator. -/
def codeDenomSq {m : ℕ} (D : Mat α m) (i j : Fin m) : α :=
  ∑ k : Fin m, partitioned D i k.val * partitioned D j k.val

/-- Modelled from the spec: `a[i]`, point `i`'s `n`-th nearest-neighbour
distance — the entry at (0-based) position `n_neighbors` of the sorted row
(position `n_neighbors` counts the self-distance 0 at position 0), which
is exactly what `np.partition(dmatrix, n_neighbors)[:, [n_neighbors]]`
would select. -/
def specKDist {m : ℕ} (D : Mat α m) (nn : ℕ) (i : Fin m) : α :=
  partitioned D i nn

/-- Modelled from the spec: the denominator `a[i] * a[j]` under the square
root in the claimed formula `R[i][j] = D[i][j] / sqrt(a[i] * a[j])`. -/
def specDenomSq {m : ℕ} (D : Mat α m) (nn : ℕ) (i j : Fin m) : α :=
  specKDist D nn i * specKDist D nn j

/-- Failing input for the DensityNormalizer claim (with
`n_neighbors = 1`): each row of this matrix has a unique valid partition
at position 1, namely its full sort. -/
def densityD₃ : Mat ℤ 3 := matOfLists [[0, 1, 2], [1, 0, 3], [2, 3, 0]] 3

/-- C7, code_bug evaluation.  At `D = densityD₃`, `n_neighbors = 1`,
entry `(0, 1)`: the code's denominator (before the square root) is the
dot product `0·0 + 1·1 + 2·3 = 7` of the partitioned rows, while the
claimed formula gives `a₀ · a₁ = 1 · 1 = 1`; consequently the ratio
entry the code computes, `1 / sqrt 7`, differs from the claimed
`D[0][1] / sqrt(a₀ a₁) = 1`.  The missing `[:, [n_neighbors]]` column
selection on line 184 is the slip. -/
theorem density_normalizer_divergence_report :
    codeDenomSq densityD₃ 0 1 = 7 ∧ specDenomSq densityD₃ 1 0 1 = 1 ∧
      ((densityD₃ 0 1 : ℤ) : ℝ) /
          Real.sqrt ((codeDenomSq densityD₃ 0 1 : ℤ) : ℝ) ≠
        ((densityD₃ 0 1 : ℤ) : ℝ) /
          Real.sqrt ((specDenomSq densityD₃ 1 0 1 : ℤ) : ℝ) := by
  have hc : codeDenomSq densityD₃ 0 1 = 7 := by decide
  have hs : specDenomSq densityD₃ 1 0 1 = 1 := by decide
  have hd : densityD₃ 0 1 = 1 := by decide
  refine ⟨hc, hs, ?_⟩
  rw [hc, hs, hd]
  push_cast
  rw [Real.sqrt_one]
  have h7 : (1 : ℝ) < Real.sqrt 7 := by
    rw [show (1 : ℝ) = Real.sqrt 1 from Real.sqrt_one.symm]
    exact Real.sqrt_lt_sqrt (by norm_num) (by norm_num)
  have hpos : (0 : ℝ) < Real.sqrt 7 := by positivity
  have hlt : (1 : ℝ) / Real.sqrt 7 < 1 := by
    rw [div_lt_one hpos]
    exact h7
  rw [div_one]
  exact ne_of_lt hlt

/-! ### GraphBuilder validation, dispatch and representation
(`cknneighbors_graph`, source lines 115-131 and 152-252)

The shape checks (`X` 2-dimensional, square when `metric='precomputed'`)
are enforced by the `Mat` type itself; the remaining validations and the
dispatch on `neighbors`/`connected`/`conn_type` are embedded below.  The
decisive detail for the missing-`delta` claim is lines 190-192 (and
206-208 for `k`):

```
if neighbors == 'delta':
    if not delta:
        ValueError("Invalid argument `delta={}`, or not passed delta" ...)
```

the `ValueError` is constructed but not `raise`d, so execution falls
through to the graph computation with `delta = None`. -/

/-- Outcome of the validation/dispatch phase: either an exception was
raised, or control reached the adjacency-graph computation with the
recorded `delta`/`k` parameters. -/
inductive BuildOutcome (α : Type)
  | raised (msg : String)
  | proceeds (delta : Option α) (k : Option ℕ)

/-- The validation-and-dispatch skeleton of
`CkNearestNeighbors.cknneighbors_graph`, faithful to the order of the
source's checks.  A comment marks where the un-raised `ValueError`s sit. -/
def cknnDispatch (n_samples : ℕ) (n_neighbors : ℤ) (neighbors : String)
    (delta : Option α) (k : Option ℕ) (connected : Bool)
    (conn_type : String) : BuildOutcome α :=
  if n_neighbors < 1 ∨ n_neighbors > (n_samples : ℤ) - 1 then
    .raised "Invalid argument n_neighbors"
  else if n_samples < 2 then
    .raised "At least 2 data points are required"
  else if neighbors = "delta" then
    -- lines 190-192: `if not delta: ValueError(...)` — constructed, not
    -- raised; execution continues with `delta` as passed (even `none`)
    if connected ∧ conn_type ≠ "nature" ∧ conn_type ≠ "force" then
      .raised "Invalid argument conn_type"
    else .proceeds delta k
  else if neighbors = "k" then
    -- lines 206-208: the same un-raised `ValueError` for a missing `k`
    if connected ∧ conn_type ≠ "nature" ∧ conn_type ≠ "force" then
      .raised "Invalid argument conn_type"
    else .proceeds delta k
  else .raised "Invalid argument neighbors"

/-- C9, code_bug evaluation.  With 20 samples, `n_neighbors = 7`,
`neighbors='delta'` and no `delta` supplied (and likewise `neighbors='k'`
with no `k`), the dispatcher does NOT fail: it proceeds to the graph
computation carrying `delta = none` (resp. `k = none`), because the
`ValueError` on lines 191/207 is constructed but never raised. -/
theorem missing_delta_raise_skipped :
    cknnDispatch 20 7 "delta" (none : Option ℤ) none false "nature" =
      .proceeds none none ∧
    cknnDispatch 20 7 "k" (none : Option ℤ) none false "nature" =
      .proceeds none none := by
  constructor <;> rfl

/-- An adjacency structure together with its representation: the sparse
matrix object (`self.ckng`) or the dense array `toarray()` produces. -/
inductive GraphRep (n : ℕ)
  | sparse (g : Graph n)
  | dense (g : Graph n)

/-- Whether a returned representation is the dense one. -/
def GraphRep.isDense {n : ℕ} : GraphRep n → Bool
  | .sparse _ => false
  | .dense _ => true

/-- What the instance method leaves behind: the stored `self.ckng` (always
the sparse structure) and the method's return value. -/
structure MethodOut (n : ℕ) where
  ckng : Graph n
  ret : GraphRep n

/-- Edge test of `radius_neighbors_graph(ratio_matrix, delta)`: distinct
points whose ratio entry is at most `delta`.  All quantities under the
square root are nonnegative, so `D[i][j]/sqrt(denom) ≤ delta` is compared
square-free as `D[i][j]² ≤ delta² · denom`. -/
def ratioEdge {m : ℕ} (D : Mat α m) (delta : α) (i j : Fin m) : Bool :=
  decide (i ≠ j) && decide (D i j ^ 2 ≤ delta ^ 2 * codeDenomSq D i j)

/-- `CkNearestNeighbors.cknneighbors_graph(X)` on the
`metric='precomputed'`, `neighbors='delta'`, `connected=False`,
`include_self=False`, `t='inf'` path: validate, build the ratio-matrix
radius graph, store it into `self.ckng`, and return it sparse or dense
(`self.ckng.toarray()`) according to `is_sparse` (lines 249-252). -/
def methodDelta {n : ℕ} (D : Mat α n) (n_neighbors : ℤ) (delta : α)
    (is_sparse : Bool) : Except String (MethodOut n) :=
  if n_neighbors < 1 ∨ n_neighbors > (n : ℤ) - 1 then
    .error "Invalid argument n_neighbors"
  else if n < 2 then
    .error "At least 2 data points are required"
  else
    .ok { ckng := fun i j => ratioEdge D delta i j,
          ret := if is_sparse then .sparse (fun i j => ratioEdge D delta i j)
                 else .dense (fun i j => ratioEdge D delta i j) }

/-- The module-level façade `cknneighbors_graph` without
`return_instance` (lines 126-131): it calls the method, DISCARDS its
return value, and returns the stored `cknn.ckng` — the sparse structure —
whatever `is_sparse` was. -/
def facadeDelta {n : ℕ} (D : Mat α n) (n_neighbors : ℤ) (delta : α)
    (is_sparse : Bool) : Except String (GraphRep n) :=
  (methodDelta D n_neighbors delta is_sparse).map (fun o => .sparse o.ckng)

/-- Concrete façade input. -/
def facadeD₂ : Mat ℤ 2 := matOfLists [[0, 1], [1, 0]] 2

/-- C10, counterexample.  At a valid input with `is_sparse = false`, the
façade still returns the sparse representation (first conjunct), even
though the method's own return value is the dense one (second conjunct):
the façade discards the method's return and hands back `cknn.ckng`. -/
theorem facade_ignores_is_sparse_cex :
    (facadeDelta facadeD₂ 1 2 false).toOption.map GraphRep.isDense =
        some false ∧
      (methodDelta facadeD₂ 1 2 false).toOption.map
        (fun o => o.ret.isDense) = some true := by
  constructor <;> rfl

/-- C10, amended.  On the embedded path, whenever the method succeeds the
façade (no `return_instance`) returns the sparse stored `ckng` regardless
of `is_sparse`, while the method's own return value does honor
`is_sparse`: sparse when true, dense (`toarray()`) when false. -/
theorem method_return_honors_is_sparse {n : ℕ} (D : Mat α n)
    (n_neighbors : ℤ) (delta : α) (is_sparse : Bool) (o : MethodOut n)
    (h : methodDelta D n_neighbors delta is_sparse = .ok o) :
    facadeDelta D n_neighbors delta is_sparse = .ok (.sparse o.ckng) ∧
    o.ret = (if is_sparse then GraphRep.sparse o.ckng
             else GraphRep.dense o.ckng) := by
  refine ⟨by unfold facadeDelta; rw [h]; rfl, ?_⟩
  unfold methodDelta at h
  split at h
  · exact absurd h (by simp)
  · split at h
    · exact absurd h (by simp)
    · obtain rfl := (Except.ok.inj h).symm
      rfl

lemma except_eq_ok_of_toOption {ε β : Type} {e : Except ε β} {x : β}
    (h : e.toOption = some x) : e = .ok x := by
  cases e with
  | error a => exact absurd h (by simp [Except.toOption])
  | ok a =>
    have := Option.some.inj (by simpa [Except.toOption] using h)
    rw [this]

/-- The method output at the concrete façade input with
`is_sparse = true`. -/
def facadeOut₂ : MethodOut 2 :=
  ((methodDelta facadeD₂ 1 2 true).toOption).get (by decide)

/-- C10, witness for the amended theorem at the concrete input. -/
theorem method_return_honors_is_sparse_witness :
    facadeDelta facadeD₂ 1 2 true = .ok (.sparse facadeOut₂.ckng) ∧
    facadeOut₂.ret = (if true then GraphRep.sparse facadeOut₂.ckng
                      else GraphRep.dense facadeOut₂.ckng) :=
  method_return_honors_is_sparse facadeD₂ 1 2 true facadeOut₂
    (except_eq_ok_of_toOption (Option.some_get (by decide)).symm)

end Cknn
